import Mathlib

/-
Verification of the decode-dispatch core of the `image` repository:
bit-depth expansion (`expand_bits`, `expand_packed`), the dimension
overflow check (`check_dimension_overflow`) from `src/utils/mod.rs`,
and the `AsyncReader` state machine (`with_guessed_format`,
`guess_format`, `require_format`, `into_dimensions`, `decode`) from
`src/io/async_reader.rs`.

Machine bytes (`u8`) are modelled as `Nat` with explicit `% 256` where
the Rust arithmetic wraps; byte buffers are `List Nat`; fallible
operations return `Except`.
-/

/-! ## Bit-depth expansion engine (`src/utils/mod.rs`) -/

/-- The shift sequence of the inner loop of `expand_bits`:
`num_iter::range_step_inclusive(8i8 - bit_depth, 0, -bit_depth)`, i.e. the
values `8 - bit_depth, 8 - 2*bit_depth, ...` down to `0` (inclusive) when
`1 ≤ bit_depth ≤ 8`.  For `bit_depth > 8` the start lies below the stop and
the sequence is empty; `bit_depth = 0` (a zero step, on which `num_iter`
does not terminate) is mapped to the empty sequence. -/
def shiftsFor (bit_depth : Nat) : List Nat :=
  if bit_depth = 0 ∨ 8 < bit_depth then [] else
  (List.range ((8 - bit_depth) / bit_depth + 1)).map (fun k => 8 - bit_depth - k * bit_depth)

/-- The local `mask` of `expand_bits`: `(1u8 << bit_depth) - 1` (u8 arithmetic;
faithful for `bit_depth < 8`, where the u8 shift is defined). -/
def maskOf (bit_depth : Nat) : Nat := ((1 <<< bit_depth) - 1) % 256

/-- The local `scaling_factor` of `expand_bits`: `255 / ((1 << bit_depth) - 1)`
in u8 arithmetic. -/
def scaleOf (bit_depth : Nat) : Nat := 255 / ((1 <<< bit_depth) - 1)

/-- The local `skip` of `expand_bits`: the number of padding samples at the end
of each row, `(8 - bit_width % 8) / bit_depth` when `bit_width % 8 ≠ 0`
(with `bit_width = row_size * bit_depth`), else `0`. -/
def skipOf (bit_depth row_size : Nat) : Nat :=
  if (row_size * bit_depth) % 8 = 0 then 0 else (8 - (row_size * bit_depth) % 8) / bit_depth

/-- The local `row_len` of `expand_bits`: `row_size + skip`. -/
def rowLenOf (bit_depth row_size : Nat) : Nat := row_size + skipOf bit_depth row_size

/-- `expand_bits(bit_depth, row_size, buf)` from `src/utils/mod.rs`: walk the
bytes of `buf`; for each byte walk the shifts `8-bit_depth, ..., 0`; maintain a
running sample position `i`; push `((v & (mask << shift)) >> shift) * scaling_factor`
(u8 arithmetic) whenever `i % row_len < row_size`, and always increment `i`. -/
def expand_bits (bit_depth row_size : Nat) (buf : List Nat) : List Nat :=
  (buf.foldl
    (fun acc v =>
      (shiftsFor bit_depth).foldl
        (fun acc2 shift =>
          (if acc2.2 % rowLenOf bit_depth row_size < row_size
            then acc2.1 ++
              [((v &&& ((maskOf bit_depth <<< shift) % 256)) >>> shift) * scaleOf bit_depth % 256]
            else acc2.1,
           acc2.2 + 1))
        acc)
    (([] : List Nat), 0)).1

/-- Specification-side description of `expand_bits`, written from the spec's
words: one output byte per logical sample, `row_size` samples per row, rows of
`ceil(row_size * bit_depth / 8)` input bytes, samples extracted
most-significant-sample-first within each byte, each sample rescaled by the
factor `255 / (2^bit_depth - 1)`. -/
def expand_bits_spec (bit_depth row_size rows : Nat) (buf : List Nat) : List Nat :=
  (List.range rows).flatMap (fun r =>
    (List.range row_size).map (fun j =>
      (((buf.getD (r * ((row_size * bit_depth + 7) / 8) + j * bit_depth / 8) 0)
          >>> (8 - bit_depth - (j * bit_depth) % 8)) &&& ((1 <<< bit_depth) - 1))
        * (255 / ((1 <<< bit_depth) - 1))))

/-- Sample stream of `expand_bits`: every sample slot value of `buf` in
extraction order (each byte contributes the slots `shiftsFor bit_depth`,
extracted as in the source: `(v & (mask << shift)) >> shift`). -/
def samplesOf (bit_depth mask : Nat) (buf : List Nat) : List Nat :=
  buf.flatMap (fun v =>
    (shiftsFor bit_depth).map (fun shift => (v &&& ((mask <<< shift) % 256)) >>> shift))

/-- The emission loop of `expand_bits`, abstracted over the already-extracted
sample stream: keep the samples whose running position `i` satisfies
`i % row_len < row_size`, rescaled in u8 arithmetic. -/
def emit (row_len row_size scale : Nat) : List Nat → Nat → List Nat
  | [], _ => []
  | s :: rest, i =>
    (if i % row_len < row_size then [s * scale % 256] else []) ++
      emit row_len row_size scale rest (i + 1)

/-- `num_iter::range_step(0, stop, step)`: the values `0, step, 2*step, ... < stop`
for `step ≥ 1` (a zero step, on which `num_iter` does not terminate, is mapped
to the empty sequence). -/
def rangeStepUp (stop step : Nat) : List Nat :=
  (List.range ((stop + step - 1) / step)).map (fun k => k * step)

/-- The `i` iterator of `expand_packed`:
`(0..entries).rev().flat_map(|idx| range_step(0, 8, bit_depth).zip(repeat(idx))).skip(extra)` —
pairs `(shift, byte_index)`, bytes in descending order, shifts ascending within
each byte, with the first `extra` pairs dropped. -/
def iList (entries bit_depth extra : Nat) : List (Nat × Nat) :=
  (((List.range entries).reverse).flatMap (fun idx =>
    (rangeStepUp 8 bit_depth).map (fun shift => (shift, idx)))).drop extra

/-- The `j` iterator of `expand_packed`:
`range_step(buf.len() as isize - channels, -channels, -channels)` — the `isize`
values `len - channels, len - 2*channels, ...` while `> -channels`. -/
def jList (len channels : Nat) : List Int :=
  (List.range ((len + channels - 1) / channels)).map
    (fun (t : Nat) => (len : Int) - ((t : Int) + 1) * (channels : Int))

/-- The loop body of `expand_packed` over the zipped `(shift, i), j` pairs.
State: the buffer being expanded in place.  Each step reads
`pixel = (buf[i] & (mask << shift)) >> shift` (u8 arithmetic), calls the
callback on `pixel` and the slice `buf[j .. j+channels]`, writes the
callback's output back over that slice, and continues with the rest of the
pairs.  Returns the final buffer together with the trace of calls
`(pixel, j)`; `none` models an out-of-bounds index (a Rust panic: `i` past
the buffer, or a negative/overrunning `j`). -/
def runPairs (f : Nat → List Nat → List Nat) (channels mask : Nat) :
    List ((Nat × Nat) × Int) → List Nat → Option (List Nat × List (Nat × Nat))
  | [], buf => some (buf, [])
  | ((shift, i), j) :: rest, buf =>
    if i < buf.length ∧ 0 ≤ j ∧ j.toNat + channels ≤ buf.length then
      (runPairs f channels mask rest
        (buf.take j.toNat
          ++ f ((buf.getD i 0 &&& ((mask <<< shift) % 256)) >>> shift)
              ((buf.drop j.toNat).take channels)
          ++ buf.drop (j.toNat + channels))).map
        (fun pr => (pr.1,
          ((buf.getD i 0 &&& ((mask <<< shift) % 256)) >>> shift, j.toNat) :: pr.2))
    else none

/-- `expand_packed(buf, channels, bit_depth, func)` from `src/utils/mod.rs`:
`pixels = buf.len() / channels * bit_depth` (a bit count), `extra = pixels % 8`,
`entries = ceil(pixels / 8)`, `mask = (1u16 << bit_depth) - 1` as u8; iterate
the zipped `i`/`j` iterators, reading packed samples and handing the callback
the sample and the `channels`-wide output slice, in place.  Returns the final
buffer and the trace of callback invocations `(sample, slice_start)`. -/
def expand_packed (buf : List Nat) (channels bit_depth : Nat)
    (f : Nat → List Nat → List Nat) : Option (List Nat × List (Nat × Nat)) :=
  let pixels := buf.length / channels * bit_depth
  let extra := pixels % 8
  let entries := pixels / 8 + (if extra = 0 then 0 else 1)
  let mask := ((1 <<< bit_depth) - 1) % 256
  runPairs f channels mask ((iList entries bit_depth extra).zip (jList buf.length channels)) buf

/-! ## Dimension overflow check (`src/utils/mod.rs`) -/

/-- `check_dimension_overflow(width, height, bytes_per_pixel)` from
`src/utils/mod.rs`: `width as u64 * height as u64 > u64::MAX / bytes_per_pixel as u64`.
The two u32 dimensions are widened to u64, so their product cannot wrap
(`(2^32-1)^2 < 2^64`); the division `u64::MAX / 0` is a Rust panic, modelled
as `none`. -/
def check_dimension_overflow (width height bytes_per_pixel : Nat) : Option Bool :=
  if bytes_per_pixel = 0 then none
  else some (decide (width * height > (2 ^ 64 - 1) / bytes_per_pixel))

/-! ## Reader state machine (`src/io/async_reader.rs`) -/

/-- The closed set of supported container formats (`ImageFormat`); the
individual enumerators are opaque to the reader state machine. -/
inductive ImageFormat
  | png
  | jpeg
  | gif
  | webp
  | tiff
  | bmp
deriving DecidableEq

/-- Modelled from the spec: `DecodingLimits` (§3) — maximum width, maximum
height and allocation ceiling, each optional ("unlimited" when absent).  The
type `super::Limits` itself is not under `src/`; the reader only stores and
forwards it, so the fields are opaque payload here. -/
structure Limits where
  max_image_width : Option Nat
  max_image_height : Option Nat
  max_alloc : Option Nat
deriving DecidableEq

/-- A seekable byte source: the underlying data and the current read
position. -/
structure ByteStream where
  data : List Nat
  pos : Nat
deriving DecidableEq

/-- The error of a failed source read (`std::io::Error` with kind
`UnexpectedEof`, as produced by `read_exact` at end of stream). -/
inductive IoError
  | unexpectedEof
deriving DecidableEq

/-- `tokio::io::AsyncReadExt::read_exact` with a 16-byte destination buffer:
succeeds, returning the 16 bytes after the current position and advancing the
position by 16, exactly when 16 bytes are available; on a shorter remainder it
fails with `UnexpectedEof`. -/
def read_exact16 (s : ByteStream) : Except IoError (List Nat × ByteStream) :=
  if s.pos + 16 ≤ s.data.length then
    .ok ((s.data.drop s.pos).take 16, { s with pos := s.pos + 16 })
  else .error .unexpectedEof

/-- `AsyncReader::guess_format` from `src/io/async_reader.rs`, parameterized by
the signature matcher `free_functions::guess_format_impl` (not under `src/`):
save the current offset (`seek(Current(0))`), `read_exact` 16 bytes into
`start`, seek back to the saved offset, and return
`guess_format_impl(&start[..len])` where `len` is `read_exact`'s return value
(always 16 on success).  Seeks on the in-memory source always succeed. -/
def guess_format (gfi : List Nat → Option ImageFormat) (s : ByteStream) :
    Except IoError (Option ImageFormat × ByteStream) :=
  let cur := s.pos
  match read_exact16 s with
  | .error e => .error e
  | .ok (start, s1) => .ok (gfi (start.take 16), { s1 with pos := cur })

/-- `AsyncReader<R>` from `src/io/async_reader.rs`: the byte source, the
optional format, and the decoding limits. -/
structure AsyncReader where
  inner : ByteStream
  format : Option ImageFormat
  limits : Limits
deriving DecidableEq

/-- `AsyncReader::with_guessed_format`: run `guess_format`, propagate its
error, and otherwise replace the format with `format.or(self.format)` —
the guess if one was made, the previous format otherwise. -/
def with_guessed_format (gfi : List Nat → Option ImageFormat) (r : AsyncReader) :
    Except IoError AsyncReader :=
  match guess_format gfi r.inner with
  | .error e => .error e
  | .ok (format, inner1) => .ok { r with inner := inner1, format := format.or r.format }

/-- `ImageFormatHint` from `crate::error`: the reader only ever constructs the
`Unknown` hint; a hint naming a concrete format is kept for completeness. -/
inductive ImageFormatHint
  | unknown
  | exact (format : ImageFormat)
deriving DecidableEq

/-- `UnsupportedErrorKind::Format(hint)` from `crate::error`. -/
inductive UnsupportedErrorKind
  | format (hint : ImageFormatHint)
deriving DecidableEq

/-- `UnsupportedError::from_format_and_kind(format_hint, kind)`. -/
structure UnsupportedError where
  format_hint : ImageFormatHint
  kind : UnsupportedErrorKind
deriving DecidableEq

/-- `ImageError`: the variants the reader itself can produce or forward. -/
inductive ImageError
  | unsupported (err : UnsupportedError)
  | io (err : IoError)
deriving DecidableEq

/-- `AsyncReader::require_format`: the stored format, or
`ImageError::Unsupported(UnsupportedError::from_format_and_kind(ImageFormatHint::Unknown,
UnsupportedErrorKind::Format(ImageFormatHint::Unknown)))` when none is set. -/
def require_format (r : AsyncReader) : Except ImageError ImageFormat :=
  match r.format with
  | some f => .ok f
  | none => .error (.unsupported ⟨.unknown, .format .unknown⟩)

/-- `AsyncReader::into_dimensions`: require a format, then dispatch
`free_functions::image_dimensions_with_format_impl_async(self.inner, format)`.
The collaborator (not under `src/`) is a parameter; note its signature takes
the source and the format only — no limits argument. -/
def into_dimensions {α : Type} (dims_impl : ByteStream → ImageFormat → Except ImageError α)
    (r : AsyncReader) : Except ImageError α :=
  match require_format r with
  | .error e => .error e
  | .ok format => dims_impl r.inner format

/-- `AsyncReader::decode`: require a format, then dispatch
`free_functions::load_inner(self.inner, self.limits, format)`.  The
collaborator (not under `src/`) is a parameter. -/
def decode {α : Type} (load_inner : ByteStream → Limits → ImageFormat → Except ImageError α)
    (r : AsyncReader) : Except ImageError α :=
  match require_format r with
  | .error e => .error e
  | .ok format => load_inner r.inner r.limits format

/-- The shape of the collaborator call a terminal operation makes, read off the
source: `into_dimensions` calls
`image_dimensions_with_format_impl_async(self.inner, format)` (no limits
argument in its signature), while `decode` calls
`load_inner(self.inner, self.limits, format)`. -/
inductive DispatchCall
  | dims (source : ByteStream) (format : ImageFormat)
  | load (source : ByteStream) (limits : Limits) (format : ImageFormat)
deriving DecidableEq

/-- Whether a dispatch call carries the given limits value: only a
`load_inner` call does; a dimensions call has no limits component at all. -/
def carries_limits : DispatchCall → Limits → Bool
  | .load _ l _, l' => decide (l = l')
  | .dims _ _, _ => false

/-! ## The blocking variant, modelled from the spec (its code is not
under `src/`), and the I/O discipline of each operation -/

/-- Modelled from the spec: the blocking `Reader` variant (§5, §6) — the same
state: source, optional format, limits. -/
structure Reader where
  inner : ByteStream
  format : Option ImageFormat
  limits : Limits
deriving DecidableEq

/-- Modelled from the spec: the blocking variant's sniff (§4.2) — "read
exactly N bytes or fewer if the stream is shorter, then restore the stream's
read position to exactly where it was before sniffing"; the guess is made
over the bytes actually read. -/
def sync_guess_format (gfi : List Nat → Option ImageFormat) (s : ByteStream) :
    Except IoError (Option ImageFormat × ByteStream) :=
  .ok (gfi ((s.data.drop s.pos).take 16), s)

/-- Modelled from the spec: the blocking variant's `with_guessed_format`
(§4.3) — same transition as the cooperative variant: replace the format on a
successful guess, keep it on no match. -/
def sync_with_guessed_format (gfi : List Nat → Option ImageFormat) (r : Reader) :
    Except IoError Reader :=
  match sync_guess_format gfi r.inner with
  | .error e => .error e
  | .ok (format, inner1) => .ok { r with inner := inner1, format := format.or r.format }

/-- An operation's source-I/O discipline: blocking calls, or
cooperative suspension. -/
inductive IoDiscipline
  | blocking
  | suspending
deriving DecidableEq

/-- The I/O discipline of `AsyncReader::decode`, read off the source: `decode`
is a plain (non-`async`) `fn` and calls `free_functions::load_inner` with no
`.await`, so its source I/O happens through blocking calls. -/
def decode_io_discipline : IoDiscipline := .blocking

/-- The I/O discipline of `AsyncReader::into_dimensions`, read off the source:
an `async fn` awaiting `image_dimensions_with_format_impl_async`. -/
def into_dimensions_io_discipline : IoDiscipline := .suspending

/-- The I/O discipline of `AsyncReader::with_guessed_format`, read off the
source: an `async fn` awaiting the seeks and the `read_exact` of
`guess_format`. -/
def with_guessed_format_io_discipline : IoDiscipline := .suspending

/-! ## Claims about the overflow check (C3, C9) -/

/-- C3 (counterexample): the claim quantifies over every `bytes_per_pixel`,
but at `width = 1, height = 1, bytes_per_pixel = 0` the product `0` is
strictly below the ceiling, so the claim requires a "not exceeded" report,
while the code divides by zero (a panic, modelled as `none`) and reports
nothing. -/
theorem check_dimension_overflow_zero_bpp :
    check_dimension_overflow 1 1 0 = none ∧ check_dimension_overflow 1 1 0 ≠ some false := by
  exact ⟨rfl, by decide⟩

/-- C3 (amended): for every `bytes_per_pixel ≥ 1`, the check reports exceeded
exactly when `width * height * bytes_per_pixel` (exact arithmetic; the two
u32 dimensions are widened to 64 bits, so `width * height` itself cannot
wrap) exceeds the byte ceiling `u64::MAX = 2^64 - 1`, and reports
not-exceeded for every combination at or below it. -/
theorem check_dimension_overflow_iff (width height bytes_per_pixel : Nat)
    (hw : width < 2 ^ 32) (hh : height < 2 ^ 32) (hb : bytes_per_pixel < 2 ^ 8)
    (hpos : 1 ≤ bytes_per_pixel) :
    (check_dimension_overflow width height bytes_per_pixel = some true ↔
      2 ^ 64 - 1 < width * height * bytes_per_pixel) ∧
    (check_dimension_overflow width height bytes_per_pixel = some false ↔
      width * height * bytes_per_pixel ≤ 2 ^ 64 - 1) ∧
    width * height < 2 ^ 64 := by
  have hbp : bytes_per_pixel ≠ 0 := by omega
  have hdiv : (2 ^ 64 - 1) / bytes_per_pixel < width * height ↔
      2 ^ 64 - 1 < width * height * bytes_per_pixel := by
    rw [Nat.div_lt_iff_lt_mul (by omega), Nat.mul_assoc]
  refine ⟨?_, ?_, ?_⟩
  · rw [check_dimension_overflow, if_neg hbp]
    simpa using hdiv
  · rw [check_dimension_overflow, if_neg hbp]
    simp only [Option.some.injEq, decide_eq_false_iff_not, not_lt, gt_iff_lt]
    constructor
    · intro hle
      rw [← Nat.not_lt, ← hdiv]
      omega
    · intro hle
      rw [Nat.not_lt.symm] at hle ⊢
      intro hcon
      exact hle (hdiv.mp hcon)
  · calc width * height < 2 ^ 32 * 2 ^ 32 := by
          exact Nat.mul_lt_mul_of_lt_of_lt hw hh
       _ = 2 ^ 64 := by norm_num

/-- C3 (witness): the amended claim at `width = 1722007169`,
`height = 42009217`, `bytes_per_pixel = 255`, whose product is exactly
`2^64 - 1` (at the ceiling, hence not exceeded). -/
theorem check_dimension_overflow_iff_witness :
    (check_dimension_overflow 1722007169 42009217 255 = some true ↔
      2 ^ 64 - 1 < 1722007169 * 42009217 * 255) ∧
    (check_dimension_overflow 1722007169 42009217 255 = some false ↔
      1722007169 * 42009217 * 255 ≤ 2 ^ 64 - 1) ∧
    1722007169 * 42009217 < 2 ^ 64 :=
  check_dimension_overflow_iff 1722007169 42009217 255 (by norm_num) (by norm_num)
    (by norm_num) (by norm_num)

/-- C9: `check_dimension_overflow` is total exactly under the precondition
`bytes_per_pixel ≥ 1`: with a nonzero divisor it returns whether
`width * height` exceeds `u64::MAX / bytes_per_pixel`, and with
`bytes_per_pixel = 0` the divisor of `u64::MAX / bytes_per_pixel` is zero
(a panic, modelled as `none`), so callers must guarantee a nonzero
per-pixel byte count. -/
theorem check_dimension_overflow_total_of_pos (width height bytes_per_pixel : Nat) :
    (1 ≤ bytes_per_pixel →
      check_dimension_overflow width height bytes_per_pixel
        = some (decide ((2 ^ 64 - 1) / bytes_per_pixel < width * height))) ∧
    check_dimension_overflow width height 0 = none := by
  constructor
  · intro h
    rw [check_dimension_overflow, if_neg (by omega)]
  · rfl

/-- C9 (witness): the statement at `width = 3`, `height = 5`,
`bytes_per_pixel = 2`. -/
theorem check_dimension_overflow_total_of_pos_witness :
    check_dimension_overflow 3 5 2 = some (decide ((2 ^ 64 - 1) / 2 < 3 * 5)) ∧
    check_dimension_overflow 3 5 0 = none :=
  ⟨(check_dimension_overflow_total_of_pos 3 5 2).1 (by decide),
   (check_dimension_overflow_total_of_pos 3 5 0).2⟩

/-! ## Claims about the reader state machine (C2, C4, C5, C7, C8) -/

/-- C2 (counterexample): on a source of 10 bytes (fewer than 16) at position
0, the sniff does not succeed with a guess over the available bytes —
`read_exact` fails with `UnexpectedEof` and the error propagates before the
restoring seek — even with a matcher that answers PNG on every prefix. -/
theorem guess_format_short_stream_counterexample :
    guess_format (fun _ => some ImageFormat.png) ⟨List.replicate 10 0, 0⟩
      = .error .unexpectedEof ∧
    ¬ (guess_format (fun _ => some ImageFormat.png)
        ⟨List.replicate 10 0, 0⟩).isOk = true := by
  exact ⟨rfl, by decide⟩

/-- C2 (amended): whenever at least 16 bytes are available at the current
position, `guess_format` reads exactly the 16 leading bytes and restores the
stream's read position to exactly where it was before sniffing, succeeding
with the matcher's guess over those 16 bytes; on a stream with fewer than 16
bytes available the sniff instead fails with the `UnexpectedEof` I/O error
from `read_exact`, the restoring seek never being reached. -/
theorem guess_format_reads_sixteen_and_restores (gfi : List Nat → Option ImageFormat)
    (s : ByteStream) :
    (s.pos + 16 ≤ s.data.length →
      guess_format gfi s = .ok (gfi ((s.data.drop s.pos).take 16), s)) ∧
    (s.data.length < s.pos + 16 →
      guess_format gfi s = .error .unexpectedEof) := by
  rcases s with ⟨d, p⟩
  constructor
  · intro h
    simp only at h
    simp [guess_format, read_exact16, if_pos h, List.take_take]
  · intro h
    simp only at h
    simp [guess_format, read_exact16, if_neg (show ¬ p + 16 ≤ d.length by omega)]

/-- C2 (witness): the amended statement at a 16-byte source (exact read and
restore) and at a 10-byte source (the failure branch). -/
theorem guess_format_reads_sixteen_and_restores_witness :
    guess_format (fun _ => some ImageFormat.png) ⟨List.replicate 16 7, 0⟩
      = .ok (some ImageFormat.png, ⟨List.replicate 16 7, 0⟩) ∧
    guess_format (fun _ => some ImageFormat.png) ⟨List.replicate 10 0, 0⟩
      = .error .unexpectedEof :=
  ⟨by
    have h := (guess_format_reads_sixteen_and_restores (fun _ => some ImageFormat.png)
      ⟨List.replicate 16 7, 0⟩).1 (by simp)
    simpa using h,
   (guess_format_reads_sixteen_and_restores (fun _ => some ImageFormat.png)
      ⟨List.replicate 10 0, 0⟩).2 (by simp)⟩

/-- C4: whenever the sniff's read succeeds (16 bytes are available at the
current position; seeks on the source always succeed), `with_guessed_format`
returns success with the source restored and the limits kept; the format
becomes the matcher's guess when one is made (whether the previous format was
set or not), and is left exactly as it was when the matcher returns no
guess. -/
theorem with_guessed_format_success (gfi : List Nat → Option ImageFormat)
    (r : AsyncReader) (h : r.inner.pos + 16 ≤ r.inner.data.length) :
    ∃ r', with_guessed_format gfi r = .ok r' ∧
      r'.inner = r.inner ∧ r'.limits = r.limits ∧
      (∀ f, gfi ((r.inner.data.drop r.inner.pos).take 16) = some f → r'.format = some f) ∧
      (gfi ((r.inner.data.drop r.inner.pos).take 16) = none → r'.format = r.format) := by
  rcases r with ⟨⟨d, p⟩, fmt, lim⟩
  simp only at h
  refine ⟨⟨⟨d, p⟩, (gfi ((d.drop p).take 16)).or fmt, lim⟩, ?_, rfl, rfl, ?_, ?_⟩
  · simp [with_guessed_format, guess_format, read_exact16, if_pos h, List.take_take]
  · intro f hf
    simp [hf, Option.or]
  · intro hf
    simp [hf, Option.or]

/-- C4 (witness): the statement at a 16-byte all-zero source, no preset
format, and a matcher that always answers PNG. -/
theorem with_guessed_format_success_witness :
    ∃ r', with_guessed_format (fun _ => some ImageFormat.png)
        ⟨⟨List.replicate 16 0, 0⟩, none, ⟨none, none, none⟩⟩ = .ok r' ∧
      r'.inner = (⟨⟨List.replicate 16 0, 0⟩, none,
        (⟨none, none, none⟩ : Limits)⟩ : AsyncReader).inner ∧
      r'.limits = (⟨⟨List.replicate 16 0, 0⟩, none,
        (⟨none, none, none⟩ : Limits)⟩ : AsyncReader).limits ∧
      (∀ f, (fun _ => some ImageFormat.png) (((List.replicate 16 0).drop 0).take 16) = some f →
        r'.format = some f) ∧
      ((fun _ => some ImageFormat.png) (((List.replicate 16 0).drop 0).take 16) = none →
        r'.format = none) :=
  with_guessed_format_success (fun _ => some ImageFormat.png)
    ⟨⟨List.replicate 16 0, 0⟩, none, ⟨none, none, none⟩⟩ (by simp)

/-- C5 (counterexample): at a concrete reader with a set format,
`into_dimensions` dispatches `image_dimensions_with_format_impl_async(inner, format)` —
a call that carries no limits value at all, contradicting "the terminal
operation dispatches to that format's decoder with the source and the current
limits" for `into_dimensions`. -/
theorem into_dimensions_limits_not_dispatched :
    into_dimensions (fun src fmt => .ok (DispatchCall.dims src fmt))
        ⟨⟨[], 0⟩, some .png, ⟨some 1, some 2, some 3⟩⟩
      = .ok (.dims ⟨[], 0⟩ .png) ∧
    carries_limits (DispatchCall.dims ⟨[], 0⟩ .png) ⟨some 1, some 2, some 3⟩ = false :=
  ⟨rfl, rfl⟩

/-- C5 (amended): with no format set, both terminal operations fail with
`UnsupportedFormat` carrying the hint "unknown", whatever the per-format
decoder is (so the decoder is never invoked and the source is untouched);
with a format set, `decode` dispatches to the decoder with the source and the
current limits, while `into_dimensions` dispatches with the source and format
only (its collaborator takes no limits). -/
theorem terminal_operations_require_format (r : AsyncReader) :
    (r.format = none →
      (∀ (α : Type) (dims_impl : ByteStream → ImageFormat → Except ImageError α),
        into_dimensions dims_impl r
          = .error (.unsupported ⟨.unknown, .format .unknown⟩)) ∧
      (∀ (α : Type) (load_inner : ByteStream → Limits → ImageFormat → Except ImageError α),
        decode load_inner r
          = .error (.unsupported ⟨.unknown, .format .unknown⟩))) ∧
    (∀ f, r.format = some f →
      into_dimensions (fun src fmt => .ok (DispatchCall.dims src fmt)) r
        = .ok (.dims r.inner f) ∧
      decode (fun src lim fmt => .ok (DispatchCall.load src lim fmt)) r
        = .ok (.load r.inner r.limits f)) := by
  constructor
  · intro h
    constructor
    · intro α dims_impl
      simp [into_dimensions, require_format, h]
    · intro α load_inner
      simp [decode, require_format, h]
  · intro f hf
    constructor
    · simp [into_dimensions, require_format, hf]
    · simp [decode, require_format, hf]

/-- C5 (witness): the amended statement applied at a format-less reader and at
a PNG reader. -/
theorem terminal_operations_require_format_witness :
    into_dimensions (fun src fmt => .ok (DispatchCall.dims src fmt))
        ⟨⟨[7], 0⟩, none, ⟨none, none, none⟩⟩
      = .error (.unsupported ⟨.unknown, .format .unknown⟩) ∧
    decode (fun src lim fmt => .ok (DispatchCall.load src lim fmt))
        ⟨⟨[7], 0⟩, some .png, ⟨none, none, none⟩⟩
      = .ok (.load ⟨[7], 0⟩ ⟨none, none, none⟩ .png) :=
  ⟨((terminal_operations_require_format ⟨⟨[7], 0⟩, none, ⟨none, none, none⟩⟩).1 rfl).1
      DispatchCall (fun src fmt => .ok (DispatchCall.dims src fmt)),
   ((terminal_operations_require_format
      ⟨⟨[7], 0⟩, some .png, ⟨none, none, none⟩⟩).2 .png rfl).2⟩

/-- C7: if `with_guessed_format` succeeds, the resulting reader's stream sits
at the position before the call (same source state), and a second call
succeeds, guesses over the same 16 bytes, and returns the reader unchanged
(same format, same position). -/
theorem with_guessed_format_idempotent (gfi : List Nat → Option ImageFormat)
    (r r' : AsyncReader) (h : with_guessed_format gfi r = .ok r') :
    r'.inner = r.inner ∧ with_guessed_format gfi r' = .ok r' := by
  rcases r with ⟨⟨d, p⟩, fmt, lim⟩
  by_cases hle : p + 16 ≤ d.length
  · have hr' : r' = ⟨⟨d, p⟩, (gfi ((d.drop p).take 16)).or fmt, lim⟩ := by
      simp [with_guessed_format, guess_format, read_exact16, if_pos hle, List.take_take] at h
      exact h.symm
    subst hr'
    refine ⟨rfl, ?_⟩
    simp only [with_guessed_format, guess_format, read_exact16]
    rw [if_pos (by simpa using hle)]
    simp only [List.take_take, Nat.min_self, Except.ok.injEq, AsyncReader.mk.injEq]
    refine ⟨trivial, ?_, trivial⟩
    cases gfi ((d.drop p).take 16) <;> simp [Option.or]
  · exfalso
    simp [with_guessed_format, guess_format, read_exact16, if_neg hle] at h

/-- C7 (witness): the statement at a 16-byte all-zero source with an
always-PNG matcher. -/
theorem with_guessed_format_idempotent_witness :
    (⟨⟨List.replicate 16 0, 0⟩, some .png, ⟨none, none, none⟩⟩ : AsyncReader).inner
      = (⟨⟨List.replicate 16 0, 0⟩, none, ⟨none, none, none⟩⟩ : AsyncReader).inner ∧
    with_guessed_format (fun _ => some ImageFormat.png)
        ⟨⟨List.replicate 16 0, 0⟩, some .png, ⟨none, none, none⟩⟩
      = .ok ⟨⟨List.replicate 16 0, 0⟩, some .png, ⟨none, none, none⟩⟩ :=
  with_guessed_format_idempotent (fun _ => some ImageFormat.png)
    ⟨⟨List.replicate 16 0, 0⟩, none, ⟨none, none, none⟩⟩
    ⟨⟨List.replicate 16 0, 0⟩, some .png, ⟨none, none, none⟩⟩ (by rfl)

/-- C8: the two variants do not merely differ in I/O discipline.  On a
10-byte source the cooperative `with_guessed_format` fails with
`UnexpectedEof` while the blocking variant (modelled from the spec) succeeds;
on a 16-byte source the two agree.  Moreover `AsyncReader::decode` is a plain
non-`async` `fn` calling the blocking `load_inner`, so its source I/O is
blocking, not suspending, unlike `into_dimensions`. -/
theorem async_blocking_variants_diverge :
    with_guessed_format (fun _ => some ImageFormat.png)
        ⟨⟨List.replicate 10 0, 0⟩, none, ⟨none, none, none⟩⟩ = .error .unexpectedEof ∧
    sync_with_guessed_format (fun _ => some ImageFormat.png)
        ⟨⟨List.replicate 10 0, 0⟩, none, ⟨none, none, none⟩⟩
      = .ok ⟨⟨List.replicate 10 0, 0⟩, some .png, ⟨none, none, none⟩⟩ ∧
    with_guessed_format (fun _ => some ImageFormat.png)
        ⟨⟨List.replicate 16 0, 0⟩, none, ⟨none, none, none⟩⟩
      = .ok ⟨⟨List.replicate 16 0, 0⟩, some .png, ⟨none, none, none⟩⟩ ∧
    sync_with_guessed_format (fun _ => some ImageFormat.png)
        ⟨⟨List.replicate 16 0, 0⟩, none, ⟨none, none, none⟩⟩
      = .ok ⟨⟨List.replicate 16 0, 0⟩, some .png, ⟨none, none, none⟩⟩ ∧
    decode_io_discipline = .blocking ∧
    decode_io_discipline ≠ into_dimensions_io_discipline := by
  refine ⟨rfl, rfl, rfl, rfl, rfl, by decide⟩

/-! ## Helper lemmas for the expansion engine -/

/-- Masking before shifting equals shifting before masking:
`(v &&& (mask <<< s)) >>> s = (v >>> s) &&& mask`. -/
theorem and_shiftLeft_shiftRight (v mask s : Nat) :
    (v &&& (mask <<< s)) >>> s = (v >>> s) &&& mask := by
  apply Nat.eq_of_testBit_eq
  intro i
  simp only [Nat.testBit_shiftRight, Nat.testBit_and, Nat.testBit_shiftLeft]
  have h1 : s + i ≥ s := by omega
  have h2 : s + i - s = i := by omega
  simp [h1, h2]

/-- The source's sample extraction `(v & (mask << shift)) >> shift` (u8
arithmetic) equals mask-after-shift, whenever the shifted mask fits a byte. -/
theorem extract_eq_of_lt (v mask s : Nat) (h : mask <<< s < 256) :
    (v &&& (mask <<< s) % 256) >>> s = (v >>> s) &&& mask := by
  rw [Nat.mod_eq_of_lt h, and_shiftLeft_shiftRight]

/-- A shifted sub-byte mask fits a byte: `((1 <<< bd) - 1) <<< s < 256` for
`s ≤ 8 - bd`. -/
theorem mask_shiftLeft_lt (bd s : Nat) (hbd : 1 ≤ bd) (h8 : bd ≤ 8) (hs : s ≤ 8 - bd) :
    ((1 <<< bd) - 1) <<< s < 256 := by
  rw [Nat.shiftLeft_eq, Nat.shiftLeft_eq, Nat.one_mul]
  calc (2 ^ bd - 1) * 2 ^ s < 2 ^ bd * 2 ^ s := by
        have : 0 < 2 ^ s := Nat.pos_pow_of_pos s (by omega)
        have : 2 ^ bd - 1 < 2 ^ bd := by
          have : 0 < 2 ^ bd := Nat.pos_pow_of_pos bd (by omega)
          omega
        exact Nat.mul_lt_mul_of_lt_of_le this (Nat.le_refl _) (by positivity)
    _ = 2 ^ (bd + s) := by rw [Nat.pow_add]
    _ ≤ 2 ^ 8 := Nat.pow_le_pow_right (by omega) (by omega)

/-- Every extracted sample is at most the mask. -/
theorem extract_le_mask (v mask s : Nat) :
    (v &&& (mask <<< s) % 256) >>> s ≤ mask := by
  calc (v &&& (mask <<< s) % 256) >>> s
      ≤ ((mask <<< s) % 256) >>> s := by
        rw [Nat.shiftRight_eq_div_pow, Nat.shiftRight_eq_div_pow]
        exact Nat.div_le_div_right Nat.and_le_right
    _ ≤ (mask <<< s) >>> s := by
        rw [Nat.shiftRight_eq_div_pow, Nat.shiftRight_eq_div_pow]
        exact Nat.div_le_div_right (Nat.mod_le _ _)
    _ = mask := by
        rw [Nat.shiftLeft_eq, Nat.shiftRight_eq_div_pow]
        exact Nat.mul_div_cancel mask (Nat.pos_pow_of_pos s (by omega))

/-- `emit` distributes over appending sample streams. -/
theorem emit_append (rl rs sc : Nat) (l₁ : List Nat) :
    ∀ (l₂ : List Nat) (i : Nat),
      emit rl rs sc (l₁ ++ l₂) i = emit rl rs sc l₁ i ++ emit rl rs sc l₂ (i + l₁.length) := by
  induction l₁ with
  | nil => intro l₂ i; simp [emit]
  | cons s rest ih =>
    intro l₂ i
    simp only [List.cons_append, emit, List.length_cons, List.append_eq]
    rw [ih, List.append_assoc]
    have h2 : i + 1 + rest.length = i + (rest.length + 1) := by omega
    rw [h2]

/-- The inner `foldl` of `expand_bits` over one byte's shift list, fused into
`emit` over that byte's extracted samples. -/
theorem expand_bits_inner_foldl (bd rs v : Nat) (shifts : List Nat) :
    ∀ (p : List Nat) (i : Nat),
      shifts.foldl
        (fun acc2 shift =>
          (if acc2.2 % rowLenOf bd rs < rs
            then acc2.1 ++
              [((v &&& ((maskOf bd <<< shift) % 256)) >>> shift) * scaleOf bd % 256]
            else acc2.1,
           acc2.2 + 1))
        (p, i)
      = (p ++ emit (rowLenOf bd rs) rs (scaleOf bd)
          (shifts.map (fun shift => (v &&& ((maskOf bd <<< shift) % 256)) >>> shift)) i,
         i + shifts.length) := by
  induction shifts with
  | nil => intro p i; simp [emit]
  | cons sh rest ih =>
    intro p i
    simp only [List.foldl_cons, List.map_cons, emit, List.length_cons]
    by_cases hcond : i % rowLenOf bd rs < rs
    · rw [if_pos hcond, if_pos hcond, ih]
      simp only [List.append_assoc, List.singleton_append]
      have hlen : i + 1 + rest.length = i + (rest.length + 1) := by omega
      rw [hlen]
    · rw [if_neg hcond, if_neg hcond, ih]
      simp only [List.nil_append]
      have hlen : i + 1 + rest.length = i + (rest.length + 1) := by omega
      rw [hlen]

/-- The outer `foldl` of `expand_bits`, fused into `emit` over the whole
sample stream. -/
theorem expand_bits_outer_foldl (bd rs : Nat) (buf : List Nat) :
    ∀ (p : List Nat) (i : Nat),
      buf.foldl
        (fun acc v =>
          (shiftsFor bd).foldl
            (fun acc2 shift =>
              (if acc2.2 % rowLenOf bd rs < rs
                then acc2.1 ++
                  [((v &&& ((maskOf bd <<< shift) % 256)) >>> shift) * scaleOf bd % 256]
                else acc2.1,
               acc2.2 + 1))
            acc)
        (p, i)
      = (p ++ emit (rowLenOf bd rs) rs (scaleOf bd) (samplesOf bd (maskOf bd) buf) i,
         i + (samplesOf bd (maskOf bd) buf).length) := by
  induction buf with
  | nil => intro p i; simp [emit, samplesOf]
  | cons v rest ih =>
    intro p i
    simp only [List.foldl_cons]
    rw [expand_bits_inner_foldl, ih]
    have hs : samplesOf bd (maskOf bd) (v :: rest)
        = (shiftsFor bd).map (fun shift => (v &&& ((maskOf bd <<< shift) % 256)) >>> shift)
          ++ samplesOf bd (maskOf bd) rest := by
      simp [samplesOf, List.flatMap_cons]
    rw [hs, emit_append]
    simp only [List.append_assoc, List.length_append, List.length_map]
    have hlen : i + (shiftsFor bd).length + (samplesOf bd (maskOf bd) rest).length
        = i + ((shiftsFor bd).length + (samplesOf bd (maskOf bd) rest).length) := by omega
    rw [hlen]

/-- `expand_bits` is `emit` applied to the extracted sample stream. -/
theorem expand_bits_eq_emit (bd rs : Nat) (buf : List Nat) :
    expand_bits bd rs buf
      = emit (rowLenOf bd rs) rs (scaleOf bd) (samplesOf bd (maskOf bd) buf) 0 := by
  rw [expand_bits, expand_bits_outer_foldl]
  simp

/-- `emit` is the map of rescaling over the positions selected by the
row predicate. -/
theorem emit_eq_filter_map (rl rs sc : Nat) (l : List Nat) :
    ∀ i : Nat,
      emit rl rs sc l i
        = ((List.range l.length).filter (fun m => (i + m) % rl < rs)).map
            (fun m => l.getD m 0 * sc % 256) := by
  induction l with
  | nil => intro i; simp [emit]
  | cons s rest ih =>
    intro i
    rw [emit, ih (i + 1), List.length_cons, List.range_succ_eq_map, List.filter_cons,
      List.filter_map]
    have hcomp : ((fun m => decide ((i + m) % rl < rs)) ∘ Nat.succ)
        = fun m => decide ((i + 1 + m) % rl < rs) := by
      funext m
      have harith : i + Nat.succ m = i + 1 + m := by omega
      simp only [Function.comp, harith]
    rw [hcomp]
    by_cases hcond : i % rl < rs
    · rw [if_pos hcond, if_pos (show decide ((i + 0) % rl < rs) = true by simpa using hcond)]
      simp only [List.map_cons, List.map_map, List.getD_cons_zero, List.singleton_append]
      simp [Function.comp, List.getD_cons_succ]
    · rw [if_neg hcond, if_neg (show ¬ decide ((i + 0) % rl < rs) = true by simpa using hcond)]
      simp only [List.map_map, List.nil_append]
      apply List.map_congr_left
      intro m _
      simp [Function.comp, List.getD_cons_succ]

/-- Filtering `m < rs` over `range rl` keeps exactly `range rs` when
`rs ≤ rl`. -/
theorem range_filter_lt (rs rl : Nat) (h : rs ≤ rl) :
    (List.range rl).filter (fun m => m < rs) = List.range rs := by
  obtain ⟨u, rfl⟩ : ∃ u, rl = rs + u := ⟨rl - rs, by omega⟩
  rw [List.range_add, List.filter_append]
  have h1 : (List.range rs).filter (fun m => decide (m < rs)) = List.range rs := by
    rw [List.filter_eq_self]
    intro a ha
    simpa using List.mem_range.mp ha
  have h2 : ((List.range u).map (fun x => rs + x)).filter (fun m => decide (m < rs)) = [] := by
    rw [List.filter_eq_nil_iff]
    intro a ha
    obtain ⟨x, _, rfl⟩ := List.mem_map.mp ha
    simp
  rw [h1, h2, List.append_nil]

/-- The positions selected by the row predicate over `rows` whole rows are
the per-row blocks of the first `rs` positions. -/
theorem range_filter_rows (rl rs : Nat) (hle : rs ≤ rl) :
    ∀ rows : Nat,
      (List.range (rows * rl)).filter (fun m => m % rl < rs)
        = (List.range rows).flatMap (fun r => (List.range rs).map (fun j => r * rl + j)) := by
  intro rows
  induction rows with
  | zero => simp
  | succ n ih =>
    have hsplit : (n + 1) * rl = n * rl + rl := by ring
    rw [hsplit, List.range_add, List.filter_append, ih, List.range_succ, List.flatMap_append,
      List.flatMap_singleton]
    congr 1
    rw [List.filter_map]
    have hpred : ((fun m => decide (m % rl < rs)) ∘ (fun x => n * rl + x))
        = fun m => decide ((n * rl + m) % rl < rs) := by
      funext m
      simp [Function.comp]
    rw [hpred]
    have hcongr : (List.range rl).filter (fun m => decide ((n * rl + m) % rl < rs))
        = (List.range rl).filter (fun m => m < rs) := by
      apply List.filter_congr
      intro m hm
      have hmlt : m < rl := List.mem_range.mp hm
      have hmod : (n * rl + m) % rl = m := by
        rw [Nat.mul_comm, Nat.mul_add_mod]
        exact Nat.mod_eq_of_lt hmlt
      simp [hmod]
    rw [hcongr, range_filter_lt rs rl hle]

/-- `shiftsFor` at an in-range index is the arithmetic shift value. -/
theorem shiftsFor_getD (bd m : Nat) (hbd : 1 ≤ bd) (hbd8 : bd ≤ 8)
    (hm : m < (8 - bd) / bd + 1) :
    (shiftsFor bd).getD m 0 = 8 - bd - m * bd := by
  rw [shiftsFor, if_neg (by omega), List.getD_eq_getElem?_getD, List.getElem?_map,
    List.getElem?_range hm]
  rfl

/-- Length of the shift list. -/
theorem shiftsFor_length (bd : Nat) (hbd : 1 ≤ bd) (hbd8 : bd ≤ 8) :
    (shiftsFor bd).length = (8 - bd) / bd + 1 := by
  rw [shiftsFor, if_neg (by omega), List.length_map, List.length_range]

/-- Length of the extracted sample stream: one slot per shift per byte. -/
theorem samplesOf_length (bd mask : Nat) (hbd : 1 ≤ bd) (hbd8 : bd ≤ 8) (buf : List Nat) :
    (samplesOf bd mask buf).length = buf.length * ((8 - bd) / bd + 1) := by
  induction buf with
  | nil => simp [samplesOf]
  | cons v rest ih =>
    rw [samplesOf, List.flatMap_cons, List.length_append, List.length_map,
      shiftsFor_length bd hbd hbd8, ← samplesOf, ih, List.length_cons]
    ring

/-- Indexing the extracted sample stream: position `m` reads byte `m*bd/8`
with shift `8 - bd - (m*bd) % 8`, provided the per-byte slot count times the
bit depth is a full byte (`((8-bd)/bd + 1) * bd = 8`, true for the packed
depths 1, 2, 4). -/
theorem samplesOf_getD (bd : Nat) (hbd : 1 ≤ bd) (hbd8 : bd ≤ 8)
    (hspb : ((8 - bd) / bd + 1) * bd = 8) (buf : List Nat) :
    ∀ m, (samplesOf bd (maskOf bd) buf).getD m 0
      = (buf.getD (m * bd / 8) 0 &&& ((maskOf bd <<< (8 - bd - (m * bd) % 8)) % 256))
          >>> (8 - bd - (m * bd) % 8) := by
  induction buf with
  | nil =>
    intro m
    simp [samplesOf]
  | cons v rest ih =>
    intro m
    have hchunk : samplesOf bd (maskOf bd) (v :: rest)
        = (shiftsFor bd).map (fun shift => (v &&& ((maskOf bd <<< shift) % 256)) >>> shift)
          ++ samplesOf bd (maskOf bd) rest := by
      simp [samplesOf, List.flatMap_cons]
    set spb := (8 - bd) / bd + 1 with hspb_def
    have hlenchunk :
        ((shiftsFor bd).map
          (fun shift => (v &&& ((maskOf bd <<< shift) % 256)) >>> shift)).length = spb := by
      rw [List.length_map, shiftsFor_length bd hbd hbd8]
    by_cases hm : m < spb
    · rw [hchunk, List.getD_eq_getElem?_getD, List.getElem?_append_left (by omega),
        List.getElem?_map]
      have hsh : (shiftsFor bd)[m]? = some (8 - bd - m * bd) := by
        rw [shiftsFor, if_neg (by omega), List.getElem?_map, List.getElem?_range hm]
        rfl
      rw [hsh]
      have hmbd : m * bd < 8 := by
        have : m * bd ≤ (spb - 1) * bd := Nat.mul_le_mul_right bd (by omega)
        have h2 : (spb - 1) * bd + bd = 8 := by
          rw [Nat.sub_one_mul, hspb]
          omega
        omega
      have hdiv : m * bd / 8 = 0 := Nat.div_eq_of_lt hmbd
      have hmod : (m * bd) % 8 = m * bd := Nat.mod_eq_of_lt hmbd
      rw [hdiv, hmod]
      rfl
    · rw [hchunk, List.getD_eq_getElem?_getD, List.getElem?_append_right (by omega),
        hlenchunk, ← List.getD_eq_getElem?_getD, ih (m - spb)]
      have hms : m = spb + (m - spb) := by omega
      have hspb8 : spb * bd = 8 := hspb
      have hmbd : m * bd = 8 + (m - spb) * bd := by
        calc m * bd = (spb + (m - spb)) * bd := by rw [← hms]
          _ = spb * bd + (m - spb) * bd := by ring
          _ = 8 + (m - spb) * bd := by rw [hspb8]
      rw [hmbd]
      have hdiv : (8 + (m - spb) * bd) / 8 = (m - spb) * bd / 8 + 1 := by omega
      have hmod : (8 + (m - spb) * bd) % 8 = ((m - spb) * bd) % 8 := by omega
      rw [hdiv, hmod]
      have hgd : (v :: rest).getD ((m - spb) * bd / 8 + 1) 0
          = rest.getD ((m - spb) * bd / 8) 0 := List.getD_cons_succ
      rw [hgd]

/-- The code's `row_len` counts whole bytes: `row_len * bit_depth` is the
bit-width of a row rounded up to a byte boundary, for the packed depths. -/
theorem rowLen_mul (bd rs : Nat) (hbd : bd = 1 ∨ bd = 2 ∨ bd = 4) :
    rowLenOf bd rs * bd = 8 * ((rs * bd + 7) / 8) := by
  rcases hbd with rfl | rfl | rfl <;>
    (unfold rowLenOf skipOf; split_ifs with h <;> omega)

/-- `expand_bits` on whole rows computes the specification-side description:
`row_size` rescaled samples per row, extracted most-significant-first, the
row-padding slots skipped. -/
theorem expand_bits_eq_spec (bd rs rows : Nat) (buf : List Nat)
    (hbd : bd = 1 ∨ bd = 2 ∨ bd = 4)
    (hlen : buf.length = rows * ((rs * bd + 7) / 8)) :
    expand_bits bd rs buf = expand_bits_spec bd rs rows buf := by
  have hbd1 : 1 ≤ bd := by rcases hbd with rfl | rfl | rfl <;> omega
  have hbd8 : bd ≤ 8 := by rcases hbd with rfl | rfl | rfl <;> omega
  have hspb8 : ((8 - bd) / bd + 1) * bd = 8 := by
    rcases hbd with rfl | rfl | rfl <;> decide
  have hmask : maskOf bd = (1 <<< bd) - 1 := by
    rcases hbd with rfl | rfl | rfl <;> decide
  have hms : ((1 <<< bd) - 1) * scaleOf bd = 255 := by
    rcases hbd with rfl | rfl | rfl <;> decide
  set B := (rs * bd + 7) / 8 with hB
  set rl := rowLenOf bd rs with hrl
  set spb := (8 - bd) / bd + 1 with hspb
  have hrl8 : rl * bd = 8 * B := rowLen_mul bd rs hbd
  have hrlspb : rl = B * spb := by
    have h1 : rl * bd = B * spb * bd := by
      rw [hrl8, Nat.mul_assoc, hspb8]
      ring
    exact Nat.eq_of_mul_eq_mul_right (by omega) h1
  have hrs_le_rl : rs ≤ rl := by
    rw [hrl]
    unfold rowLenOf
    exact Nat.le_add_right rs _
  have hslen : (samplesOf bd (maskOf bd) buf).length = rows * rl := by
    rw [samplesOf_length bd (maskOf bd) hbd1 hbd8, hlen, hrlspb]
    ring
  rw [expand_bits_eq_emit, emit_eq_filter_map, hslen]
  simp only [Nat.zero_add]
  rw [range_filter_rows rl rs hrs_le_rl rows, List.map_flatMap]
  rw [expand_bits_spec]
  apply List.flatMap_congr
  intro r hr
  rw [List.map_map]
  apply List.map_congr_left
  intro j hj
  have hjlt : j < rs := List.mem_range.mp hj
  simp only [Function.comp]
  rw [samplesOf_getD bd hbd1 hbd8 hspb8 buf (r * rl + j)]
  have hkey : (r * rl + j) * bd = 8 * (r * B) + j * bd := by
    calc (r * rl + j) * bd = r * (rl * bd) + j * bd := by ring
      _ = r * (8 * B) + j * bd := by rw [hrl8]
      _ = 8 * (r * B) + j * bd := by ring
  rw [hkey]
  have hdiv : (8 * (r * B) + j * bd) / 8 = r * B + j * bd / 8 := by omega
  have hmod : (8 * (r * B) + j * bd) % 8 = (j * bd) % 8 := by omega
  rw [hdiv, hmod, hmask]
  rw [extract_eq_of_lt _ _ _
    (mask_shiftLeft_lt bd _ hbd1 hbd8 (Nat.sub_le (8 - bd) ((j * bd) % 8)))]
  have hle255 : ((buf.getD (r * B + j * bd / 8) 0 >>> (8 - bd - (j * bd) % 8)) &&& ((1 <<< bd) - 1))
      * scaleOf bd ≤ 255 := by
    calc ((buf.getD (r * B + j * bd / 8) 0 >>> (8 - bd - (j * bd) % 8)) &&& ((1 <<< bd) - 1))
        * scaleOf bd
        ≤ ((1 <<< bd) - 1) * scaleOf bd := Nat.mul_le_mul_right _ Nat.and_le_right
      _ = 255 := hms
  rw [Nat.mod_eq_of_lt (by omega)]
  rfl

/-- The specification-side output has exactly `row_size` bytes per row. -/
theorem expand_bits_spec_length (bd rs rows : Nat) (buf : List Nat) :
    (expand_bits_spec bd rs rows buf).length = rs * rows := by
  rw [expand_bits_spec, List.length_flatMap]
  have hmap : List.map (List.length ∘ (fun r =>
      (List.range rs).map (fun j =>
        (((buf.getD (r * ((rs * bd + 7) / 8) + j * bd / 8) 0)
            >>> (8 - bd - (j * bd) % 8)) &&& ((1 <<< bd) - 1))
          * (255 / ((1 <<< bd) - 1))))) (List.range rows)
      = List.map (fun _ => rs) (List.range rows) := by
    apply List.map_congr_left
    intro r _
    simp [Function.comp]
  rw [hmap, List.map_const', List.length_range, List.sum_replicate, smul_eq_mul,
    Nat.mul_comm]

/-- C1: for every bit depth in `{1, 2, 4}`, every `row_size ≥ 1` and every
input of whole rows of `ceil(row_size * bit_depth / 8)` bytes, `expand_bits`
returns one byte per logical sample — the specification-side description:
`row_size * rows` outputs, most-significant-sample-first extraction, the
`(8 - row_size*bit_depth mod 8) / bit_depth` padding slots of each row
skipped, each sample rescaled by `255 / (2^bit_depth - 1)`; in particular the
spec's 1-bit example evaluates as stated. -/
theorem expand_bits_correct (bd rs rows : Nat) (buf : List Nat)
    (hbd : bd = 1 ∨ bd = 2 ∨ bd = 4) (_hrs : 1 ≤ rs)
    (hlen : buf.length = rows * ((rs * bd + 7) / 8)) :
    expand_bits bd rs buf = expand_bits_spec bd rs rows buf ∧
    (expand_bits bd rs buf).length = rs * rows ∧
    expand_bits 1 10 [0b11110000, 0b11000000, 0b00001111, 0b11000000]
      = [255, 255, 255, 255, 0, 0, 0, 0, 255, 255, 0, 0, 0, 0,
         255, 255, 255, 255, 255, 255] := by
  refine ⟨expand_bits_eq_spec bd rs rows buf hbd hlen, ?_, by decide⟩
  rw [expand_bits_eq_spec bd rs rows buf hbd hlen, expand_bits_spec_length]

/-- C1 (witness): the statement at `bit_depth = 1`, `row_size = 10`, two rows
of two bytes each (the spec's own example input). -/
theorem expand_bits_correct_witness :
    expand_bits 1 10 [240, 192, 15, 192] = expand_bits_spec 1 10 2 [240, 192, 15, 192] ∧
    (expand_bits 1 10 [240, 192, 15, 192]).length = 10 * 2 ∧
    expand_bits 1 10 [0b11110000, 0b11000000, 0b00001111, 0b11000000]
      = [255, 255, 255, 255, 0, 0, 0, 0, 255, 255, 0, 0, 0, 0,
         255, 255, 255, 255, 255, 255] :=
  expand_bits_correct 1 10 2 [240, 192, 15, 192] (Or.inl rfl) (by decide) (by decide)

/-- Every output of `emit` is a rescaled stream sample. -/
theorem mem_emit (rl rs sc : Nat) (l : List Nat) :
    ∀ i p, p ∈ emit rl rs sc l i → ∃ s ∈ l, p = s * sc % 256 := by
  induction l with
  | nil => intro i p hp; simp [emit] at hp
  | cons s rest ih =>
    intro i p hp
    rw [emit] at hp
    rcases List.mem_append.mp hp with h1 | h2
    · by_cases hcond : i % rl < rs
      · rw [if_pos hcond] at h1
        simp only [List.mem_singleton] at h1
        exact ⟨s, List.mem_cons_self s rest, h1⟩
      · rw [if_neg hcond] at h1
        simp at h1
    · obtain ⟨t, ht, hteq⟩ := ih (i + 1) p h2
      exact ⟨t, List.mem_cons_of_mem s ht, hteq⟩

/-- Every stream sample is an extraction `(v & (mask << sh)) >> sh`. -/
theorem mem_samplesOf (bd mask : Nat) (buf : List Nat) (s : Nat)
    (hs : s ∈ samplesOf bd mask buf) :
    ∃ v sh, s = (v &&& ((mask <<< sh) % 256)) >>> sh := by
  rw [samplesOf, List.mem_flatMap] at hs
  obtain ⟨v, _, hv⟩ := hs
  rw [List.mem_map] at hv
  obtain ⟨sh, _, hsh⟩ := hv
  exact ⟨v, sh, hsh.symm⟩

/-- C10: for every bit depth in `{1, 2, 4}` the scale `255 / (2^bit_depth - 1)`
is exact (the maximal sample `2^bit_depth - 1` maps to exactly 255), and every
byte emitted by `expand_bits` is such a multiple `s * scale` with
`s ≤ 2^bit_depth - 1`; in particular the u8 multiplication never wraps
(every output is at most 255). -/
theorem expand_bits_output_scaled (bd rs : Nat) (buf : List Nat)
    (hbd : bd = 1 ∨ bd = 2 ∨ bd = 4) :
    ((1 <<< bd) - 1) * scaleOf bd = 255 ∧
    ∀ p ∈ expand_bits bd rs buf,
      ∃ s, s ≤ (1 <<< bd) - 1 ∧ p = s * scaleOf bd ∧ p ≤ 255 := by
  have hms : ((1 <<< bd) - 1) * scaleOf bd = 255 := by
    rcases hbd with rfl | rfl | rfl <;> decide
  have hmask : maskOf bd = (1 <<< bd) - 1 := by
    rcases hbd with rfl | rfl | rfl <;> decide
  refine ⟨hms, ?_⟩
  intro p hp
  rw [expand_bits_eq_emit] at hp
  obtain ⟨s, hsmem, hpeq⟩ := mem_emit _ _ _ _ 0 p hp
  obtain ⟨v, sh, hseq⟩ := mem_samplesOf bd (maskOf bd) buf s hsmem
  have hle : s ≤ (1 <<< bd) - 1 := by
    rw [hseq, ← hmask]
    exact extract_le_mask v (maskOf bd) sh
  have hle255 : s * scaleOf bd ≤ 255 :=
    le_trans (Nat.mul_le_mul_right _ hle) (le_of_eq hms)
  have hmod : s * scaleOf bd % 256 = s * scaleOf bd := Nat.mod_eq_of_lt (by omega)
  refine ⟨s, hle, ?_, ?_⟩
  · rw [hpeq, hmod]
  · rw [hpeq, hmod]
    exact hle255

/-- C10 (witness): the statement at `bit_depth = 1`, `row_size = 10`, the
spec's example input. -/
theorem expand_bits_output_scaled_witness :
    ((1 <<< 1) - 1) * scaleOf 1 = 255 ∧
    ∀ p ∈ expand_bits 1 10 [240, 192, 15, 192],
      ∃ s, s ≤ (1 <<< 1) - 1 ∧ p = s * scaleOf 1 ∧ p ≤ 255 :=
  expand_bits_output_scaled 1 10 [240, 192, 15, 192] (Or.inl rfl)

/-- With no pairs skipped (`extra = 0`), the `i` iterator of `expand_packed`
enumerates, at position `k`, the slot `k % spb` (shifts ascending) of byte
`entries - 1 - k / spb` (bytes descending), where `spb` is the per-byte slot
count `ceil(8 / bit_depth)`. -/
theorem iList_eq (bd spb : Nat) (hspb : 0 < spb) (hcount : (8 + bd - 1) / bd = spb) :
    ∀ E, iList E bd 0
      = (List.range (E * spb)).map (fun k => ((k % spb) * bd, E - 1 - k / spb)) := by
  have hstep : rangeStepUp 8 bd = (List.range spb).map (fun k => k * bd) := by
    rw [rangeStepUp, hcount]
  intro E
  induction E with
  | zero => simp [iList]
  | succ n ih =>
    rw [iList, List.drop_zero] at ih ⊢
    have hrev : (List.range (n + 1)).reverse = n :: (List.range n).reverse := by
      rw [List.range_succ, List.reverse_append]
      simp
    rw [hrev, List.flatMap_cons, ih, hstep, List.map_map]
    have hsplit : (n + 1) * spb = spb + n * spb := by ring
    rw [hsplit, List.range_add, List.map_append, List.map_map]
    congr 1
    · apply List.map_congr_left
      intro k hk
      have hklt : k < spb := List.mem_range.mp hk
      simp only [Function.comp]
      rw [Nat.mod_eq_of_lt hklt, Nat.div_eq_of_lt hklt]
      simp
    · apply List.map_congr_left
      intro k _
      simp only [Function.comp]
      have hmod : (spb + k) % spb = k % spb := Nat.add_mod_left spb k
      have hdiv : (spb + k) / spb = k / spb + 1 := by
        rw [Nat.add_comm spb k, Nat.add_div_right k hspb]
      rw [hmod, hdiv]
      have : n + 1 - 1 - (k / spb + 1) = n - 1 - k / spb := by omega
      rw [this]

/-- On a buffer of `N * channels` bytes, the `j` iterator of `expand_packed`
enumerates, at position `t`, the slice start `(N - 1 - t) * channels`
(descending). -/
theorem jList_eq (N ch : Nat) (hch : 0 < ch) :
    jList (N * ch) ch = (List.range N).map (fun t => (((N - 1 - t) * ch : Nat) : Int)) := by
  rw [jList]
  have hcount : (N * ch + ch - 1) / ch = N := by
    have h1 : N * ch + ch - 1 = ch * N + (ch - 1) := by
      rw [Nat.mul_comm]
      omega
    rw [h1, Nat.mul_add_div hch, Nat.div_eq_of_lt (by omega), Nat.add_zero]
  rw [hcount]
  apply List.map_congr_left
  intro t ht
  have htN : t < N := List.mem_range.mp ht
  obtain ⟨u, rfl⟩ : ∃ u, N = t + 1 + u := ⟨N - t - 1, by omega⟩
  have hsub : t + 1 + u - 1 - t = u := by omega
  rw [hsub]
  push_cast
  ring

/-- Two lists agreeing on a prefix agree at every index below it. -/
theorem getD_eq_of_take_eq (l l' : List Nat) (n m : Nat)
    (h : l.take n = l'.take n) (hm : m < n) :
    l.getD m 0 = l'.getD m 0 := by
  rw [List.getD_eq_getElem?_getD, List.getD_eq_getElem?_getD]
  have h1 : (l.take n)[m]? = l[m]? := by rw [List.getElem?_take, if_pos hm]
  have h2 : (l'.take n)[m]? = l'[m]? := by rw [List.getElem?_take, if_pos hm]
  rw [← h1, ← h2, h]

/-- The u8 mask `(1 << bit_depth) - 1` fits a byte for `bit_depth ≤ 8`. -/
theorem maskmod_eq (bd : Nat) (hbd8 : bd ≤ 8) : ((1 <<< bd) - 1) % 256 = (1 <<< bd) - 1 := by
  apply Nat.mod_eq_of_lt
  rw [Nat.shiftLeft_eq, Nat.one_mul]
  have : (2 : Nat) ^ bd ≤ 2 ^ 8 := Nat.pow_le_pow_right (by omega) hbd8
  omega

/-- Unfolding of one in-bounds `runPairs` step. -/
theorem runPairs_cons_pos (f : Nat → List Nat → List Nat) (ch mask shift i : Nat) (j : Int)
    (rest : List ((Nat × Nat) × Int)) (buf : List Nat)
    (h : i < buf.length ∧ 0 ≤ j ∧ j.toNat + ch ≤ buf.length) :
    runPairs f ch mask (((shift, i), j) :: rest) buf
      = (runPairs f ch mask rest
          (buf.take j.toNat
            ++ f ((buf.getD i 0 &&& ((mask <<< shift) % 256)) >>> shift)
                ((buf.drop j.toNat).take ch)
            ++ buf.drop (j.toNat + ch))).map
          (fun pr => (pr.1,
            ((buf.getD i 0 &&& ((mask <<< shift) % 256)) >>> shift, j.toNat) :: pr.2)) := by
  rw [runPairs, if_pos h]

/-- Running `expand_packed`'s loop over the descending pixel pair list: with a
length-preserving callback, each step reads its sample from the still-intact
prefix of the original buffer and writes only within its own output slice, so
the trace records pixels `P-1, ..., 0` in order, each with the sample
extracted from the original buffer and with slice start `pixel * channels`. -/
theorem runPairs_trace (f : Nat → List Nat → List Nat) (ch bd : Nat) (orig : List Nat)
    (hch : 0 < ch) (hbd1 : 1 ≤ bd) (hbd8 : bd ≤ 8)
    (hf : ∀ p s, (f p s).length = s.length)
    (N : Nat) (hlen : orig.length = N * ch) :
    ∀ P, P ≤ N → ∀ cur : List Nat, cur.length = orig.length →
      cur.take (P * ch) = orig.take (P * ch) →
      (runPairs f ch (((1 <<< bd) - 1) % 256)
          ((List.range P).map (fun t =>
            ((8 - bd - ((P - 1 - t) * bd) % 8, (P - 1 - t) * bd / 8),
             (((P - 1 - t) * ch : Nat) : Int)))) cur).map Prod.snd
        = some ((List.range P).map (fun t =>
            ((orig.getD ((P - 1 - t) * bd / 8) 0 >>> (8 - bd - ((P - 1 - t) * bd) % 8))
                &&& ((1 <<< bd) - 1),
             (P - 1 - t) * ch))) := by
  intro P
  induction P with
  | zero =>
    intro _ cur _ _
    simp [runPairs]
  | succ P ih =>
    intro hPN cur hcur htake
    have hdist : (P + 1) * ch = P * ch + ch := by ring
    have hPch : (P + 1) * ch ≤ N * ch := Nat.mul_le_mul_right ch hPN
    have hbyte_le : P * bd / 8 ≤ P := by
      calc P * bd / 8 ≤ P * 8 / 8 := Nat.div_le_div_right (Nat.mul_le_mul_left P hbd8)
        _ = P := Nat.mul_div_cancel P (by omega)
    have hNle : N ≤ N * ch := Nat.le_mul_of_pos_right N hch
    have hpairs : (List.range (P + 1)).map (fun t =>
        ((8 - bd - ((P + 1 - 1 - t) * bd) % 8, (P + 1 - 1 - t) * bd / 8),
         (((P + 1 - 1 - t) * ch : Nat) : Int)))
        = ((8 - bd - (P * bd) % 8, P * bd / 8), ((P * ch : Nat) : Int))
          :: (List.range P).map (fun t =>
            ((8 - bd - ((P - 1 - t) * bd) % 8, (P - 1 - t) * bd / 8),
             (((P - 1 - t) * ch : Nat) : Int))) := by
      rw [List.range_succ_eq_map, List.map_cons, List.map_map]
      congr 1
      apply List.map_congr_left
      intro t _
      have hsub : P + 1 - 1 - (t + 1) = P - 1 - t := by omega
      simp only [Function.comp, Nat.succ_eq_add_one, hsub]
    have htrace : (List.range (P + 1)).map (fun t =>
        ((orig.getD ((P + 1 - 1 - t) * bd / 8) 0 >>> (8 - bd - ((P + 1 - 1 - t) * bd) % 8))
            &&& ((1 <<< bd) - 1),
         (P + 1 - 1 - t) * ch))
        = ((orig.getD (P * bd / 8) 0 >>> (8 - bd - (P * bd) % 8)) &&& ((1 <<< bd) - 1),
           P * ch)
          :: (List.range P).map (fun t =>
            ((orig.getD ((P - 1 - t) * bd / 8) 0 >>> (8 - bd - ((P - 1 - t) * bd) % 8))
                &&& ((1 <<< bd) - 1),
             (P - 1 - t) * ch)) := by
      rw [List.range_succ_eq_map, List.map_cons, List.map_map]
      congr 1
      apply List.map_congr_left
      intro t _
      have hsub : P + 1 - 1 - (t + 1) = P - 1 - t := by omega
      simp only [Function.comp, Nat.succ_eq_add_one, hsub]
    rw [hpairs, htrace]
    have hguard : P * bd / 8 < cur.length ∧ (0 : Int) ≤ ((P * ch : Nat) : Int)
        ∧ ((P * ch : Nat) : Int).toNat + ch ≤ cur.length := by
      refine ⟨?_, Int.natCast_nonneg _, ?_⟩
      · have hPN' : P < N := by omega
        omega
      · rw [Int.toNat_natCast, hcur, hlen]
        omega
    rw [runPairs_cons_pos f ch _ _ _ _ _ cur hguard]
    simp only [Int.toNat_natCast]
    have hslice_len : ((cur.drop (P * ch)).take ch).length = ch := by
      rw [List.length_take, List.length_drop]
      omega
    have hwrite_len : ∀ out : List Nat, out.length = ch →
        (cur.take (P * ch) ++ out ++ cur.drop (P * ch + ch)).length = orig.length := by
      intro out hout
      simp only [List.length_append, List.length_take, List.length_drop, hout]
      omega
    have hwrite_take : ∀ out : List Nat, out.length = ch →
        (cur.take (P * ch) ++ out ++ cur.drop (P * ch + ch)).take (P * ch)
          = orig.take (P * ch) := by
      intro out hout
      rw [List.append_assoc, List.take_left' (by rw [List.length_take]; omega)]
      calc cur.take (P * ch)
          = (cur.take ((P + 1) * ch)).take (P * ch) := by
            rw [List.take_take]
            congr 1
            omega
        _ = (orig.take ((P + 1) * ch)).take (P * ch) := by rw [htake]
        _ = orig.take (P * ch) := by
            rw [List.take_take]
            congr 1
            omega
    have hpix_orig : cur.getD (P * bd / 8) 0 = orig.getD (P * bd / 8) 0 := by
      apply getD_eq_of_take_eq cur orig ((P + 1) * ch) (P * bd / 8) htake
      have h1 : P + 1 ≤ (P + 1) * ch := Nat.le_mul_of_pos_right (P + 1) hch
      omega
    have hres := ih (show P ≤ N by omega)
        (cur.take (P * ch)
          ++ f ((cur.getD (P * bd / 8) 0 &&&
                (((((1 <<< bd) - 1) % 256) <<< (8 - bd - P * bd % 8)) % 256))
                >>> (8 - bd - P * bd % 8))
              ((cur.drop (P * ch)).take ch)
          ++ cur.drop (P * ch + ch))
        (hwrite_len _ (by rw [hf]; exact hslice_len))
        (hwrite_take _ (by rw [hf]; exact hslice_len))
    obtain ⟨pr, hpr, hsnd⟩ := Option.map_eq_some'.mp hres
    rw [hpr]
    simp only [Option.map_some, Option.map_some']
    rw [hsnd, hpix_orig, maskmod_eq bd hbd8,
      extract_eq_of_lt _ _ _ (mask_shiftLeft_lt bd _ hbd1 hbd8 (Nat.sub_le _ _))]

/-- C6 (amended): when `channels` divides the buffer length and the total
packed bit count `(buf.len / channels) * bit_depth` is a whole number of
bytes (`extra = 0` — the case the `.skip(extra)` of the source handles
correctly), `expand_packed` invokes the callback exactly once per logical
pixel, in strictly decreasing pixel order `N-1, ..., 0`, passing pixel `p`'s
packed sample — extracted most-significant-sample-first from the original,
not-yet-overwritten packed prefix, masked to `bit_depth` bits — and the
output slice starting at `p * channels`; the in-place expansion never
overwrites unconsumed packed input. -/
theorem expand_packed_reverse_trace (buf : List Nat) (channels bit_depth : Nat)
    (f : Nat → List Nat → List Nat)
    (hch : 1 ≤ channels) (hbd : bit_depth = 1 ∨ bit_depth = 2 ∨ bit_depth = 4)
    (hdvd : channels ∣ buf.length)
    (halign : 8 ∣ buf.length / channels * bit_depth)
    (hf : ∀ p s, (f p s).length = s.length) :
    (expand_packed buf channels bit_depth f).map Prod.snd
      = some ((List.range (buf.length / channels)).map (fun t =>
          ((buf.getD ((buf.length / channels - 1 - t) * bit_depth / 8) 0 >>>
              (8 - bit_depth - ((buf.length / channels - 1 - t) * bit_depth) % 8))
              &&& ((1 <<< bit_depth) - 1),
           (buf.length / channels - 1 - t) * channels))) := by
  have hlen : buf.length = buf.length / channels * channels := (Nat.div_mul_cancel hdvd).symm
  have hextra : buf.length / channels * bit_depth % 8 = 0 := by
    obtain ⟨k, hk⟩ := halign
    omega
  simp only [expand_packed, hextra, eq_self_iff_true, if_true, Nat.add_zero]
  set N := buf.length / channels with hN
  rcases hbd with rfl | rfl | rfl
  · -- bit_depth = 1, eight slots per byte
    have hE : N * 1 / 8 * 8 = N := by omega
    rw [iList_eq 1 8 (by omega) (by decide) (N * 1 / 8), hE]
    rw [show buf.length = N * channels from hlen, jList_eq N channels (by omega),
      List.zip_map']
    have hpairs : (List.range N).map
        (fun t => (((t % 8) * 1, N * 1 / 8 - 1 - t / 8), (((N - 1 - t) * channels : Nat) : Int)))
        = (List.range N).map (fun t =>
          ((8 - 1 - ((N - 1 - t) * 1) % 8, (N - 1 - t) * 1 / 8),
           (((N - 1 - t) * channels : Nat) : Int))) := by
      apply List.map_congr_left
      intro t ht
      have htN : t < N := List.mem_range.mp ht
      have h1 : (t % 8) * 1 = 8 - 1 - ((N - 1 - t) * 1) % 8 := by omega
      have h2 : N * 1 / 8 - 1 - t / 8 = (N - 1 - t) * 1 / 8 := by omega
      rw [h1, h2]
    rw [hpairs]
    exact runPairs_trace f channels 1 buf (by omega) (by omega) (by omega) hf N
      hlen N (Nat.le_refl N) buf rfl rfl
  · -- bit_depth = 2, four slots per byte
    have hE : N * 2 / 8 * 4 = N := by omega
    rw [iList_eq 2 4 (by omega) (by decide) (N * 2 / 8), hE]
    rw [show buf.length = N * channels from hlen, jList_eq N channels (by omega),
      List.zip_map']
    have hpairs : (List.range N).map
        (fun t => (((t % 4) * 2, N * 2 / 8 - 1 - t / 4), (((N - 1 - t) * channels : Nat) : Int)))
        = (List.range N).map (fun t =>
          ((8 - 2 - ((N - 1 - t) * 2) % 8, (N - 1 - t) * 2 / 8),
           (((N - 1 - t) * channels : Nat) : Int))) := by
      apply List.map_congr_left
      intro t ht
      have htN : t < N := List.mem_range.mp ht
      have h1 : (t % 4) * 2 = 8 - 2 - ((N - 1 - t) * 2) % 8 := by omega
      have h2 : N * 2 / 8 - 1 - t / 4 = (N - 1 - t) * 2 / 8 := by omega
      rw [h1, h2]
    rw [hpairs]
    exact runPairs_trace f channels 2 buf (by omega) (by omega) (by omega) hf N
      hlen N (Nat.le_refl N) buf rfl rfl
  · -- bit_depth = 4, two slots per byte
    have hE : N * 4 / 8 * 2 = N := by omega
    rw [iList_eq 4 2 (by omega) (by decide) (N * 4 / 8), hE]
    rw [show buf.length = N * channels from hlen, jList_eq N channels (by omega),
      List.zip_map']
    have hpairs : (List.range N).map
        (fun t => (((t % 2) * 4, N * 4 / 8 - 1 - t / 2), (((N - 1 - t) * channels : Nat) : Int)))
        = (List.range N).map (fun t =>
          ((8 - 4 - ((N - 1 - t) * 4) % 8, (N - 1 - t) * 4 / 8),
           (((N - 1 - t) * channels : Nat) : Int))) := by
      apply List.map_congr_left
      intro t ht
      have htN : t < N := List.mem_range.mp ht
      have h1 : (t % 2) * 4 = 8 - 4 - ((N - 1 - t) * 4) % 8 := by omega
      have h2 : N * 4 / 8 - 1 - t / 2 = (N - 1 - t) * 4 / 8 := by omega
      rw [h1, h2]
    rw [hpairs]
    exact runPairs_trace f channels 4 buf (by omega) (by omega) (by omega) hf N
      hlen N (Nat.le_refl N) buf rfl rfl

/-- C6 (witness): the amended statement at `channels = 1`, `bit_depth = 4`,
on the two-byte buffer `[0xB5, 0x3C]` with the identity callback: two pixels,
visited `1` then `0`, samples `0xB5 & 0xF = 5` (low nibble, shift 0) and
`0xB5 >> 4 = 11` (high nibble), slice starts `1` and `0`. -/
theorem expand_packed_reverse_trace_witness :
    (expand_packed [181, 60] 1 4 (fun _ s => s)).map Prod.snd = some [(5, 1), (11, 0)] := by
  rw [expand_packed_reverse_trace [181, 60] 1 4 (fun _ s => s) (by omega)
    (Or.inr (Or.inr rfl)) (by decide) (by decide) (fun _ _ => rfl)]
  rfl

/-- C6 (counterexample): the claim fails for buffers whose packed bit count
is not a whole number of bytes, and for buffers whose length is not a
multiple of `channels`.  With `channels = 1`, `bit_depth = 1` and a 5-byte
buffer (5 logical pixels, 5 packed bits), `.skip(extra)` skips `extra = 5`
iterator entries instead of the `8 - 5 = 3` unused slots, so the callback
runs only 3 times, not once per pixel.  With `channels = 3`, `bit_depth = 4`
and a 7-byte buffer (2 logical pixels), the callback's slices start at
`4` and `1` instead of the claimed `pixel * channels` positions `3` and
`0`. -/
theorem expand_packed_skip_miscount :
    (expand_packed [0, 0, 0, 0, 0] 1 1 (fun _ s => s)).map (fun x => x.2.length) = some 3 ∧
    (expand_packed [0, 0, 0, 0, 0] 1 1 (fun _ s => s)).map (fun x => x.2.length) ≠ some 5 ∧
    (expand_packed [0, 0, 0, 0, 0, 0, 0] 3 4 (fun _ s => s)).map (fun x => x.2.map Prod.snd)
      = some [4, 1] ∧
    (expand_packed [0, 0, 0, 0, 0, 0, 0] 3 4 (fun _ s => s)).map (fun x => x.2.map Prod.snd)
      ≠ some [3, 0] := by
  refine ⟨by decide, by decide, by decide, by decide⟩
